import Mathlib

/-!
Shallow embedding of `sjtu::linked_hashmap` from
`src/linked_hashmap/linked_hashmap.hpp`.

Keys and mapped values are specialised to `Nat` (the container is generic;
nothing in the claims depends on the key/value types beyond hashing and
decidable equality).  Heap pointers are modelled by unique node identifiers
(`Entry.id`, allocated from the monotone counter `nextId`); the doubly linked
"time" list threading `hd -> ... -> tl` is modelled by the list `order` of
live entries in insertion order; the bucket array `buc` is modelled as a
function from bucket index to the chain of node ids (chain head first, i.e.
the `nxt`-linked singly linked list).  The `end()` iterator (the `tl`
sentinel) is modelled by `none`; an iterator carries the identity `cid` of
the container that produced it, modelling the `source` back pointer.
-/

namespace LinkedHashmap

/-- Capacity floor, `static const size_t LEN = 13`. -/
def LEN : Nat := 13

/-- One live node: its key/value pair plus its identity (models the heap
address of the `Node`). -/
structure Entry where
  key : Nat
  val : Nat
  id : Nat
deriving DecidableEq, Repr

/-- Container state: `cid` is the container's own identity (models `this`),
`len` the bucket-array capacity, `load` the live-entry count, `order` the
doubly linked insertion-order list (`hd->time_nxt .. tl->time_lst`), `buc`
the bucket chains (ids, chain head first), `nextId` the allocation counter. -/
structure HM where
  cid : Nat
  len : Nat
  load : Nat
  order : List Entry
  buc : Nat → List Nat
  nextId : Nat

/-- Iterator: container identity plus current node; `none` is the `tl`
sentinel, i.e. `end()`. -/
structure Iter where
  src : Nat
  cur : Option Nat
deriving DecidableEq, Repr

/-- Default-constructed map: `len{LEN}, load{0}`, empty sentinel-only order
list, all-null bucket array. -/
def emptyHM (cid : Nat) : HM :=
  ⟨cid, LEN, 0, [], fun _ => [], 0⟩

variable (hash : Nat → Nat)

/-- Node lookup by identity: dereferencing a `Node*`. -/
def lookup (m : HM) (id : Nat) : Option Entry :=
  m.order.find? (fun e => e.id == id)

/-- Rebuild loop body of `ChangeSpace`: `it->nxt = buc[index], buc[index] = it`
walked along the order list, i.e. prepend each live node to its new chain. -/
def rebuild (order : List Entry) (len' : Nat) : Nat → List Nat :=
  order.foldl
    (fun b e => Function.update b (hash e.key % len') (e.id :: b (hash e.key % len')))
    (fun _ => [])

/-- ChangeSpace: `len = d > 0 ? len << d | 1 : len >> -d`, then a fresh
null bucket array re-chained by one walk of the order list. -/
def ChangeSpace (m : HM) (d : Int) : HM :=
  let len' := if 0 < d then m.len <<< d.toNat ||| 1 else m.len >>> (-d).toNat
  { m with len := len', buc := rebuild hash m.order len' }

/-- Add: `if (load++ > len) ChangeSpace(1);` then link the fresh node before
`tl` in the order list and prepend it to its chain.  Returns the new state
and the id of the created node. -/
def Add (m : HM) (k v : Nat) : HM × Nat :=
  let m1 := if m.len < m.load then ChangeSpace hash m 1 else m
  let index := hash k % m1.len
  let e : Entry := ⟨k, v, m1.nextId⟩
  (⟨m1.cid, m1.len, m1.load + 1, m1.order ++ [e],
    Function.update m1.buc index (e.id :: m1.buc index), m1.nextId + 1⟩,
   m1.nextId)

/-- Del: splice the node out of the order list, `--load`, free it, then
`if (len > LEN && load << 2 < len) ChangeSpace(-1)`.  The bucket chain is
not touched here (the caller already unlinked it, or rebuilds afterwards). -/
def Del (m : HM) (id : Nat) : HM :=
  let m' : HM := { m with order := m.order.filter (fun e => e.id != id),
                          load := m.load - 1 }
  if LEN < m'.len ∧ m'.load <<< 2 < m'.len then ChangeSpace hash m' (-1) else m'

/-- Chain scan of `Find`: `for (Node *it = buc[index]; it; it = it->nxt)
if (equal(x, it->val->first)) return it;`.  A dangling id (freed node) would
be undefined behaviour in the source; the model skips it, and the invariant
rules it out in reachable states. -/
def scanChain (m : HM) (x : Nat) : List Nat → Option Nat
  | [] => none
  | id :: rest =>
    match lookup m id with
    | some e => if e.key == x then some id else scanChain m x rest
    | none => scanChain m x rest

/-- Find: hash, take the chain, scan it; `tl` (here `none`) means not found. -/
def Find (m : HM) (x : Nat) : Option Nat :=
  scanChain m x (m.buc (hash x % m.len))

/-- insert: probe with `Find`; on a hit return the existing node with flag
`false` and no mutation, on a miss `Add` and return the new node with `true`. -/
def insert (m : HM) (k v : Nat) : HM × Iter × Bool :=
  match Find hash m k with
  | some id => (m, ⟨m.cid, some id⟩, false)
  | none =>
    let r := Add hash m k v
    (r.1, ⟨r.1.cid, some r.2⟩, true)

/-- erase(pos): `if (pos.at == tl || pos.source != this) throw invalid_iterator`,
then unlink the node from its bucket chain (head case or splice), then `Del`.
`none` models the thrown exception; the dangling-iterator case is undefined
behaviour in the source and also maps to `none` here, but reachable-state
theorems exclude it. -/
def erase (m : HM) (it : Iter) : Option HM :=
  match it.cur with
  | none => none
  | some id =>
    if it.src ≠ m.cid then none
    else
      match lookup m id with
      | none => none
      | some e =>
        let index := hash e.key % m.len
        let m' : HM := { m with buc := Function.update m.buc index ((m.buc index).erase id) }
        some (Del hash m' id)

/-- at(key): `Find`, throw `index_out_of_bound` on `tl`, else the mapped
value.  `none` models the exception. -/
def atVal (m : HM) (k : Nat) : Option Nat :=
  match Find hash m k with
  | none => none
  | some id => (lookup m id).map Entry.val

/-- operator[] on a non-const map: `Find`; on a miss `Add({key, T{}})` (the
default-constructed mapped value is `0`); returns the state and the id of the
node whose `val->second` the reference aliases. -/
def bracket (m : HM) (k : Nat) : HM × Nat :=
  match Find hash m k with
  | some id => (m, id)
  | none => Add hash m k 0

/-- Writing through the `T&` returned by `at`/`operator[]`: update the mapped
value of the node with the given identity. -/
def setVal (m : HM) (id v : Nat) : HM :=
  { m with order := m.order.map (fun e => if e.id = id then ⟨e.key, v, e.id⟩ else e) }

/-- operator[] on a const map: `return at(key);`. -/
def bracketConst (m : HM) (k : Nat) : Option Nat :=
  atVal hash m k

/-- ClearNode loop: `Del` every node of the order list in order, after
`len = LEN` has been reset. -/
def clearLoop : HM → List Nat → HM
  | m, [] => m
  | m, id :: ids => clearLoop (Del hash m id) ids

/-- ClearNode: `len = LEN`, then walk the order list deleting every node. -/
def ClearNode (m : HM) : HM :=
  clearLoop hash { m with len := LEN } (m.order.map Entry.id)

/-- clear(): `ClearNode` then a fresh null bucket array. -/
def clear (m : HM) : HM :=
  let m' := ClearNode hash m
  { m' with buc := fun _ => [] }

/-- Copy construction: `len{obj.len}, load{0}`, fresh sentinels and bucket
array, then `Add(*it->val)` for every node of the source order list.  `cid`
is the new container's identity, `base` its allocation counter start. -/
def copy (m : HM) (cid base : Nat) : HM :=
  m.order.foldl (fun b e => (Add hash b e.key e.val).1)
    ⟨cid, m.len, 0, [], fun _ => [], base⟩

/-- find(key) as the public member: an iterator at the found node, or `end()`. -/
def find (m : HM) (k : Nat) : Iter :=
  ⟨m.cid, Find hash m k⟩

/-- size(). -/
def size (m : HM) : Nat := m.load

/-- A user-level operation script: insertions, erasure through
`find`+`erase(iterator)` (skipped when the key is absent, as erasing `end()`
would throw), value overwrite through `operator[]`. -/
inductive Op where
  | ins (k v : Nat)
  | del (k : Nat)
  | wr (k v : Nat)
deriving DecidableEq, Repr

/-- Run one user-level operation. -/
def applyOp (m : HM) : Op → HM
  | .ins k v => (insert hash m k v).1
  | .del k =>
    match Find hash m k with
    | some id => (erase hash m ⟨m.cid, some id⟩).getD m
    | none => m
  | .wr k v =>
    let r := bracket hash m k
    setVal r.1 r.2 v

/-- Run a user-level operation script. -/
def replay (m : HM) : List Op → HM
  | [] => m
  | op :: ops => replay (applyOp hash m op) ops

/-- Every container state reachable from a default-constructed map through
the public interface (the operations the claims quantify over). -/
inductive Reachable : HM → Prop
  | empty (cid : Nat) : Reachable (emptyHM cid)
  | insert (m : HM) (k v : Nat) : Reachable m → Reachable (insert hash m k v).1
  | erase (m m' : HM) (it : Iter) : Reachable m → erase hash m it = some m' → Reachable m'
  | bracket (m : HM) (k : Nat) : Reachable m → Reachable (bracket hash m k).1
  | setVal (m : HM) (id v : Nat) : Reachable m → Reachable (setVal m id v)
  | clear (m : HM) : Reachable m → Reachable (clear hash m)
  | copy (m : HM) (cid base : Nat) : Reachable m → Reachable (copy hash m cid base)

/-- Structural invariant of a well-formed container: capacity shape
(`len + 1 = 14 * 2 ^ k`, i.e. the orbit of 13 under grow/shrink), `load`
equals the order-list length, node identities are distinct and below the
allocation counter, keys are distinct, and the two structures agree: every
live node sits in the chain of its bucket, every chain member is a live node
chained at the index of its key's hash, and chains have no duplicates. -/
structure Inv (m : HM) : Prop where
  len_form : ∃ k, m.len + 1 = 14 * 2 ^ k
  load_eq : m.load = m.order.length
  ids_nodup : (m.order.map Entry.id).Nodup
  ids_lt : ∀ e ∈ m.order, e.id < m.nextId
  keys_nodup : (m.order.map Entry.key).Nodup
  chain_mem : ∀ e ∈ m.order, e.id ∈ m.buc (hash e.key % m.len)
  chain_sound : ∀ i id, id ∈ m.buc i → ∃ e ∈ m.order, e.id = id ∧ hash e.key % m.len = i
  chain_nodup : ∀ i, (m.buc i).Nodup

theorem len_ge_of_inv {m : HM} (h : Inv hash m) : LEN ≤ m.len := by
  obtain ⟨k, hk⟩ := h.len_form
  have : (1 : Nat) ≤ 2 ^ k := Nat.one_le_two_pow
  simp only [LEN]
  omega

theorem grow_len (n : Nat) : (n <<< 1) ||| 1 = 2 * n + 1 := by
  have h1 : n <<< 1 = 2 * n := by omega
  rw [h1]
  have h2 := Nat.lor_bit false n true 0
  simp [Nat.bit] at h2
  omega

theorem rebuild_aux (len' : Nat) (order : List Entry) :
    ∀ (b : Nat → List Nat) (i : Nat),
      (order.foldl
        (fun b e => Function.update b (hash e.key % len') (e.id :: b (hash e.key % len')))
        b) i
      = ((order.filter (fun e => hash e.key % len' == i)).map Entry.id).reverse ++ b i := by
  induction order with
  | nil => intro b i; simp
  | cons e rest ih =>
    intro b i
    simp only [List.foldl_cons, List.filter_cons]
    rw [ih]
    by_cases hc : hash e.key % len' = i
    · subst hc
      simp [Function.update_apply]
    · have hb : (hash e.key % len' == i) = false := by simp [hc]
      rw [hb]
      simp only [Bool.false_eq_true, if_false]
      rw [Function.update_apply, if_neg (fun h => hc h.symm)]

theorem rebuild_apply (len' : Nat) (order : List Entry) (i : Nat) :
    rebuild hash order len' i
      = ((order.filter (fun e => hash e.key % len' == i)).map Entry.id).reverse := by
  rw [rebuild, rebuild_aux]
  simp

theorem mem_rebuild {len' : Nat} {order : List Entry} {i id : Nat} :
    id ∈ rebuild hash order len' i
      ↔ ∃ e ∈ order, e.id = id ∧ hash e.key % len' = i := by
  rw [rebuild_apply]
  simp only [List.mem_reverse, List.mem_map, List.mem_filter]
  constructor
  · rintro ⟨e, ⟨he, hi⟩, rfl⟩
    exact ⟨e, he, rfl, by simpa using hi⟩
  · rintro ⟨e, he, rfl, hi⟩
    exact ⟨e, ⟨he, by simpa using hi⟩, rfl⟩

theorem find?_id_of_nodup {l : List Entry} (hnd : (l.map Entry.id).Nodup)
    {e : Entry} (he : e ∈ l) : l.find? (fun x => x.id == e.id) = some e := by
  induction l with
  | nil => simp at he
  | cons a rest ih =>
    rcases List.mem_cons.mp he with rfl | hmem
    · simp [List.find?_cons]
    · have hne : a.id ≠ e.id := by
        simp only [List.map_cons, List.nodup_cons] at hnd
        intro hEq
        exact hnd.1 (hEq ▸ List.mem_map_of_mem Entry.id hmem)
      rw [List.find?_cons_of_neg _ (by simpa using hne)]
      exact ih (by simp only [List.map_cons, List.nodup_cons] at hnd; exact hnd.2) hmem

theorem lookup_mem {m : HM} {id : Nat} {e : Entry} (h : lookup m id = some e) :
    e ∈ m.order ∧ e.id = id := by
  refine ⟨List.mem_of_find?_eq_some h, ?_⟩
  have := List.find?_some h
  simpa using this

theorem lookup_of_mem {m : HM} (hnd : (m.order.map Entry.id).Nodup)
    {e : Entry} (he : e ∈ m.order) : lookup m e.id = some e :=
  find?_id_of_nodup hnd he

theorem scanChain_eq_some {m : HM} {x : Nat} {l : List Nat} {id : Nat}
    (h : scanChain m x l = some id) :
    id ∈ l ∧ ∃ e, lookup m id = some e ∧ e.key = x := by
  induction l with
  | nil => simp [scanChain] at h
  | cons a rest ih =>
    cases hl : lookup m a with
    | none =>
      simp only [scanChain, hl] at h
      obtain ⟨h1, h2⟩ := ih h
      exact ⟨List.mem_cons_of_mem a h1, h2⟩
    | some e =>
      simp only [scanChain, hl] at h
      by_cases hk : e.key = x
      · rw [if_pos (by simpa using hk)] at h
        cases h
        exact ⟨List.mem_cons_self id rest, e, hl, hk⟩
      · rw [if_neg (by simpa using hk)] at h
        obtain ⟨h1, h2⟩ := ih h
        exact ⟨List.mem_cons_of_mem a h1, h2⟩

theorem scanChain_eq_none {m : HM} {x : Nat} {l : List Nat}
    (h : scanChain m x l = none) :
    ∀ id ∈ l, ∀ e, lookup m id = some e → e.key ≠ x := by
  induction l with
  | nil => simp
  | cons a rest ih =>
    intro id hid e hl hk
    cases hla : lookup m a with
    | none =>
      simp only [scanChain, hla] at h
      rcases List.mem_cons.mp hid with rfl | hmem
      · rw [hla] at hl; cases hl
      · exact ih h id hmem e hl hk
    | some e' =>
      simp only [scanChain, hla] at h
      by_cases hk' : e'.key = x
      · rw [if_pos (by simpa using hk')] at h; cases h
      · rw [if_neg (by simpa using hk')] at h
        rcases List.mem_cons.mp hid with rfl | hmem
        · rw [hla] at hl; cases hl; exact hk' hk
        · exact ih h id hmem e hl hk

theorem scanChain_finds {m : HM} {x : Nat} {l : List Nat} {id : Nat} {e : Entry}
    (hid : id ∈ l) (hl : lookup m id = some e) (hk : e.key = x)
    (huniq : ∀ id' ∈ l, ∀ e', lookup m id' = some e' → e'.key = x → id' = id) :
    scanChain m x l = some id := by
  induction l with
  | nil => simp at hid
  | cons a rest ih =>
    cases hla : lookup m a with
    | none =>
      simp only [scanChain, hla]
      rcases List.mem_cons.mp hid with rfl | hmem
      · rw [hla] at hl; cases hl
      · exact ih hmem (fun id' h' => huniq id' (List.mem_cons_of_mem a h'))
    | some e' =>
      simp only [scanChain, hla]
      by_cases hk' : e'.key = x
      · rw [if_pos (by simpa using hk')]
        rw [huniq a (List.mem_cons_self a rest) e' hla hk']
      · rw [if_neg (by simpa using hk')]
        rcases List.mem_cons.mp hid with rfl | hmem
        · rw [hla] at hl; cases hl; exact absurd hk hk'
        · exact ih hmem (fun id' h' => huniq id' (List.mem_cons_of_mem a h'))

theorem Find_eq_some_iff {m : HM} (h : Inv hash m) {k id : Nat} :
    Find hash m k = some id ↔ ∃ e ∈ m.order, e.id = id ∧ e.key = k := by
  constructor
  · intro hF
    obtain ⟨hmem, e, hl, hk⟩ := scanChain_eq_some hF
    obtain ⟨he, hid⟩ := lookup_mem hl
    exact ⟨e, he, hid, hk⟩
  · rintro ⟨e, he, rfl, rfl⟩
    have hchain : e.id ∈ m.buc (hash e.key % m.len) := h.chain_mem e he
    refine scanChain_finds hchain (lookup_of_mem h.ids_nodup he) rfl ?_
    intro id' hid' e' hl' hk'
    obtain ⟨he', hide'⟩ := lookup_mem hl'
    have : e' = e := List.inj_on_of_nodup_map h.keys_nodup he' he hk'
    rw [← hide', this]

theorem Find_eq_none_iff {m : HM} (h : Inv hash m) {k : Nat} :
    Find hash m k = none ↔ ∀ e ∈ m.order, e.key ≠ k := by
  constructor
  · intro hF e he hk
    have hchain : e.id ∈ m.buc (hash k % m.len) := hk ▸ h.chain_mem e he
    exact scanChain_eq_none hF e.id hchain e (lookup_of_mem h.ids_nodup he) hk
  · intro habs
    cases hF : Find hash m k with
    | none => rfl
    | some id =>
      obtain ⟨e, he, _, hk⟩ := (Find_eq_some_iff hash h).mp hF
      exact absurd hk (habs e he)

@[simp] theorem ChangeSpace_order (m : HM) (d : Int) :
    (ChangeSpace hash m d).order = m.order := rfl

@[simp] theorem ChangeSpace_cid (m : HM) (d : Int) :
    (ChangeSpace hash m d).cid = m.cid := rfl

@[simp] theorem ChangeSpace_load (m : HM) (d : Int) :
    (ChangeSpace hash m d).load = m.load := rfl

@[simp] theorem ChangeSpace_nextId (m : HM) (d : Int) :
    (ChangeSpace hash m d).nextId = m.nextId := rfl

theorem ChangeSpace_len_grow (m : HM) :
    (ChangeSpace hash m 1).len = 2 * m.len + 1 := by
  simp only [ChangeSpace]
  rw [if_pos (by norm_num)]
  simpa using grow_len m.len

theorem ChangeSpace_len_shrink (m : HM) :
    (ChangeSpace hash m (-1)).len = m.len / 2 := by
  simp only [ChangeSpace]
  rw [if_neg (by norm_num)]
  simp
  omega

theorem ChangeSpace_buc (m : HM) (d : Int) :
    (ChangeSpace hash m d).buc = rebuild hash m.order (ChangeSpace hash m d).len := rfl

theorem Inv_of_rebuild {m : HM} (h : Inv hash m) {m' : HM}
    (_hcid : m'.cid = m.cid) (hload : m'.load = m.load) (horder : m'.order = m.order)
    (hnext : m'.nextId = m.nextId) (hbuc : m'.buc = rebuild hash m.order m'.len)
    (hform : ∃ k, m'.len + 1 = 14 * 2 ^ k) : Inv hash m' := by
  refine ⟨hform, by rw [hload, horder]; exact h.load_eq, by rw [horder]; exact h.ids_nodup,
    ?_, by rw [horder]; exact h.keys_nodup, ?_, ?_, ?_⟩
  · intro e he
    rw [hnext]
    exact h.ids_lt e (horder ▸ he)
  · intro e he
    rw [hbuc, mem_rebuild]
    exact ⟨e, horder ▸ he, rfl, rfl⟩
  · intro i id hid
    rw [hbuc, mem_rebuild] at hid
    obtain ⟨e, he, rfl, hi⟩ := hid
    exact ⟨e, horder ▸ he, rfl, hi⟩
  · intro i
    rw [hbuc, rebuild_apply]
    rw [List.nodup_reverse]
    exact h.ids_nodup.sublist ((List.filter_sublist m.order).map Entry.id)

theorem Inv_ChangeSpace_grow {m : HM} (h : Inv hash m) :
    Inv hash (ChangeSpace hash m 1) := by
  refine Inv_of_rebuild hash h (by simp) (by simp) (by simp) (by simp)
    (ChangeSpace_buc hash m 1) ?_
  obtain ⟨k, hk⟩ := h.len_form
  refine ⟨k + 1, ?_⟩
  rw [ChangeSpace_len_grow]
  ring_nf
  omega

theorem Inv_ChangeSpace_shrink {m : HM} (h : Inv hash m) (hlen : LEN < m.len) :
    Inv hash (ChangeSpace hash m (-1)) := by
  refine Inv_of_rebuild hash h (by simp) (by simp) (by simp) (by simp)
    (ChangeSpace_buc hash m (-1)) ?_
  obtain ⟨k, hk⟩ := h.len_form
  have hk1 : 1 ≤ k := by
    rcases Nat.eq_zero_or_pos k with rfl | hpos
    · simp only [LEN] at hlen; omega
    · exact hpos
  refine ⟨k - 1, ?_⟩
  rw [ChangeSpace_len_shrink]
  have h2 : 2 ^ k = 2 * 2 ^ (k - 1) := by
    conv_lhs => rw [show k = (k - 1) + 1 by omega]
    rw [pow_succ]
    ring
  omega

theorem Add_order (m : HM) (k v : Nat) :
    (Add hash m k v).1.order = m.order ++ [⟨k, v, m.nextId⟩] := by
  by_cases hg : m.len < m.load <;> simp [Add, hg]

theorem Add_snd (m : HM) (k v : Nat) : (Add hash m k v).2 = m.nextId := by
  by_cases hg : m.len < m.load <;> simp [Add, hg]

theorem Add_cid (m : HM) (k v : Nat) : (Add hash m k v).1.cid = m.cid := by
  by_cases hg : m.len < m.load <;> simp [Add, hg]

theorem Add_load (m : HM) (k v : Nat) : (Add hash m k v).1.load = m.load + 1 := by
  by_cases hg : m.len < m.load <;> simp [Add, hg]

theorem Add_nextId (m : HM) (k v : Nat) : (Add hash m k v).1.nextId = m.nextId + 1 := by
  by_cases hg : m.len < m.load <;> simp [Add, hg]

theorem Add_len (m : HM) (k v : Nat) :
    (Add hash m k v).1.len = if m.len < m.load then 2 * m.len + 1 else m.len := by
  by_cases hg : m.len < m.load <;> simp [Add, hg, ChangeSpace_len_grow]

/-- The pure append-and-prepend step of `Add`, after the optional growth. -/
theorem Inv_append {m1 : HM} (h : Inv hash m1) {k v : Nat}
    (hk : ∀ e ∈ m1.order, e.key ≠ k) :
    Inv hash ⟨m1.cid, m1.len, m1.load + 1, m1.order ++ [⟨k, v, m1.nextId⟩],
      Function.update m1.buc (hash k % m1.len) (m1.nextId :: m1.buc (hash k % m1.len)),
      m1.nextId + 1⟩ := by
  refine ⟨h.len_form, ?_, ?_, ?_, ?_, ?_, ?_, ?_⟩
  · simp [h.load_eq]
  · simp only [List.map_append, List.map_cons, List.map_nil]
    rw [List.nodup_append]
    refine ⟨h.ids_nodup, List.nodup_singleton _, ?_⟩
    intro a ha hb
    simp only [List.mem_singleton] at hb
    subst hb
    obtain ⟨e, he, hre⟩ := List.mem_map.mp ha
    exact absurd hre (Nat.ne_of_lt (h.ids_lt e he))
  · intro e he
    dsimp only at he ⊢
    rcases List.mem_append.mp he with hmem | hnew
    · exact Nat.lt_succ_of_lt (h.ids_lt e hmem)
    · simp only [List.mem_singleton] at hnew
      subst hnew
      exact Nat.lt_succ_self _
  · simp only [List.map_append, List.map_cons, List.map_nil]
    rw [List.nodup_append]
    refine ⟨h.keys_nodup, List.nodup_singleton _, ?_⟩
    intro a ha hb
    simp only [List.mem_singleton] at hb
    subst hb
    obtain ⟨e, he, hre⟩ := List.mem_map.mp ha
    exact absurd hre (hk e he)
  · intro e he
    dsimp only at he ⊢
    rcases List.mem_append.mp he with hmem | hnew
    · rw [Function.update_apply]
      by_cases hi : hash e.key % m1.len = hash k % m1.len
      · rw [if_pos hi, ← hi]
        exact List.mem_cons_of_mem _ (h.chain_mem e hmem)
      · rw [if_neg hi]
        exact h.chain_mem e hmem
    · simp only [List.mem_singleton] at hnew
      subst hnew
      simp [Function.update_apply]
  · intro i id hid
    dsimp only at hid ⊢
    rw [Function.update_apply] at hid
    by_cases hi : i = hash k % m1.len
    · subst hi
      rw [if_pos rfl] at hid
      rcases List.mem_cons.mp hid with rfl | hmem
      · exact ⟨⟨k, v, m1.nextId⟩, List.mem_append_right _ (List.mem_singleton.mpr rfl),
          rfl, rfl⟩
      · obtain ⟨e, he, rfl, hie⟩ := h.chain_sound _ _ hmem
        exact ⟨e, List.mem_append_left _ he, rfl, hie⟩
    · rw [if_neg hi] at hid
      obtain ⟨e, he, rfl, hie⟩ := h.chain_sound i id hid
      exact ⟨e, List.mem_append_left _ he, rfl, hie⟩
  · intro i
    dsimp only
    rw [Function.update_apply]
    by_cases hi : i = hash k % m1.len
    · rw [if_pos hi]
      refine List.Nodup.cons ?_ (h.chain_nodup _)
      intro hmem
      obtain ⟨e, he, hid, _⟩ := h.chain_sound _ _ hmem
      exact absurd (hid ▸ h.ids_lt e he) (Nat.lt_irrefl _)
    · rw [if_neg hi]
      exact h.chain_nodup i

theorem Inv_Add {m : HM} (h : Inv hash m) {k : Nat}
    (hk : ∀ e ∈ m.order, e.key ≠ k) (v : Nat) : Inv hash (Add hash m k v).1 := by
  by_cases hg : m.len < m.load
  · have h1 : Inv hash (ChangeSpace hash m 1) := Inv_ChangeSpace_grow hash h
    have hk1 : ∀ e ∈ (ChangeSpace hash m 1).order, e.key ≠ k := by
      simpa using hk
    have := Inv_append hash h1 (v := v) hk1
    simpa [Add, hg] using this
  · have := Inv_append hash h (v := v) hk
    simpa [Add, hg] using this

theorem shiftLeft_two (n : Nat) : n <<< 2 = 4 * n := by omega

theorem mem_filter_ne {l : List Entry} {id : Nat} {x : Entry} :
    x ∈ l.filter (fun e => e.id != id) ↔ x ∈ l ∧ x.id ≠ id := by
  simp [List.mem_filter]

theorem length_filter_ne {l : List Entry} (hnd : (l.map Entry.id).Nodup)
    {e : Entry} (he : e ∈ l) :
    (l.filter (fun x => x.id != e.id)).length = l.length - 1 := by
  induction l with
  | nil => simp at he
  | cons a rest ih =>
    simp only [List.map_cons, List.nodup_cons] at hnd
    rcases List.mem_cons.mp he with rfl | hmem
    · rw [List.filter_cons_of_neg (by simp)]
      rw [List.filter_eq_self.mpr ?keep]
      · simp
      case keep =>
        intro x hx
        rw [bne_iff_ne]
        intro hEq
        exact hnd.1 (hEq ▸ List.mem_map_of_mem Entry.id hx)
    · have hane : a.id ≠ e.id := by
        intro hEq
        exact hnd.1 (hEq ▸ List.mem_map_of_mem Entry.id hmem)
      rw [List.filter_cons_of_pos (by simpa using hane)]
      have hlen : 1 ≤ rest.length := List.length_pos.mpr (List.ne_nil_of_mem hmem)
      simp only [List.length_cons, ih hnd.2 hmem]
      omega

theorem Del_order (m : HM) (id : Nat) :
    (Del hash m id).order = m.order.filter (fun e => e.id != id) := by
  by_cases hc : LEN < m.len ∧ (m.load - 1) <<< 2 < m.len <;> simp [Del, hc]

theorem Del_cid (m : HM) (id : Nat) : (Del hash m id).cid = m.cid := by
  by_cases hc : LEN < m.len ∧ (m.load - 1) <<< 2 < m.len <;> simp [Del, hc]

theorem Del_load (m : HM) (id : Nat) : (Del hash m id).load = m.load - 1 := by
  by_cases hc : LEN < m.len ∧ (m.load - 1) <<< 2 < m.len <;> simp [Del, hc]

theorem Del_nextId (m : HM) (id : Nat) : (Del hash m id).nextId = m.nextId := by
  by_cases hc : LEN < m.len ∧ (m.load - 1) <<< 2 < m.len <;> simp [Del, hc]

theorem Del_len (m : HM) (id : Nat) :
    (Del hash m id).len
      = if LEN < m.len ∧ 4 * (m.load - 1) < m.len then m.len / 2 else m.len := by
  by_cases hc : LEN < m.len ∧ (m.load - 1) <<< 2 < m.len
  · rw [if_pos (by rw [← shiftLeft_two]; exact hc)]
    simp only [Del, if_pos hc]
    exact ChangeSpace_len_shrink hash _
  · rw [if_neg (by rw [← shiftLeft_two]; exact hc)]
    simp [Del, hc]

/-- State after `erase` has unlinked the node from its bucket chain and `Del`
has spliced it out of the order list, before the shrink check. -/
theorem Inv_unlink {m : HM} (h : Inv hash m) {e : Entry} (he : e ∈ m.order) :
    Inv hash ⟨m.cid, m.len, m.load - 1,
      m.order.filter (fun x => x.id != e.id),
      Function.update m.buc (hash e.key % m.len)
        ((m.buc (hash e.key % m.len)).erase e.id),
      m.nextId⟩ := by
  have hsub : List.Sublist (m.order.filter (fun x => x.id != e.id)) m.order :=
    List.filter_sublist m.order
  refine ⟨h.len_form, ?_, ?_, ?_, ?_, ?_, ?_, ?_⟩
  · dsimp only
    rw [length_filter_ne h.ids_nodup he, h.load_eq]
  · exact h.ids_nodup.sublist (hsub.map Entry.id)
  · intro x hx
    exact h.ids_lt x (mem_filter_ne.mp hx).1
  · exact h.keys_nodup.sublist (hsub.map Entry.key)
  · intro x hx
    dsimp only at hx ⊢
    obtain ⟨hxo, hxne⟩ := mem_filter_ne.mp hx
    rw [Function.update_apply]
    by_cases hi : hash x.key % m.len = hash e.key % m.len
    · rw [if_pos hi]
      rw [(h.chain_nodup _).mem_erase_iff]
      exact ⟨hxne, hi ▸ h.chain_mem x hxo⟩
    · rw [if_neg hi]
      exact h.chain_mem x hxo
  · intro i id hid
    dsimp only at hid ⊢
    rw [Function.update_apply] at hid
    by_cases hi : i = hash e.key % m.len
    · rw [if_pos hi] at hid
      rw [(h.chain_nodup _).mem_erase_iff] at hid
      obtain ⟨hne, hmem⟩ := hid
      obtain ⟨e', he', rfl, hie'⟩ := h.chain_sound _ _ hmem
      exact ⟨e', mem_filter_ne.mpr ⟨he', hne⟩, rfl, hi ▸ hie'⟩
    · rw [if_neg hi] at hid
      obtain ⟨e', he', rfl, hie'⟩ := h.chain_sound _ _ hid
      refine ⟨e', mem_filter_ne.mpr ⟨he', ?_⟩, rfl, hie'⟩
      intro hEq
      have : e' = e := List.inj_on_of_nodup_map h.ids_nodup he' he hEq
      subst this
      exact hi hie'.symm
  · intro i
    dsimp only
    rw [Function.update_apply]
    by_cases hi : i = hash e.key % m.len
    · rw [if_pos hi]
      exact (h.chain_nodup _).erase e.id
    · rw [if_neg hi]
      exact h.chain_nodup i

theorem erase_eq_some {m m' : HM} {it : Iter} (her : erase hash m it = some m') :
    ∃ id e, it.cur = some id ∧ it.src = m.cid ∧ lookup m id = some e ∧
      m' = Del hash
        { m with buc := Function.update m.buc (hash e.key % m.len)
                          ((m.buc (hash e.key % m.len)).erase id) } id := by
  cases hcur : it.cur with
  | none => rw [erase, hcur] at her; cases her
  | some id =>
    simp only [erase, hcur] at her
    by_cases hsrc : it.src ≠ m.cid
    · rw [if_pos hsrc] at her; cases her
    · rw [if_neg hsrc] at her
      cases hlk : lookup m id with
      | none => simp only [hlk] at her; cases her
      | some e =>
        simp only [hlk, Option.some.injEq] at her
        exact ⟨id, e, rfl, not_ne_iff.mp hsrc, hlk, her.symm⟩

theorem Inv_erase {m m' : HM} (h : Inv hash m) {it : Iter}
    (her : erase hash m it = some m') : Inv hash m' := by
  obtain ⟨id, e, hcur, hsrc, hlk, rfl⟩ := erase_eq_some hash her
  obtain ⟨he, hid⟩ := lookup_mem hlk
  subst hid
  have h2 := Inv_unlink hash h he
  rw [Del]
  dsimp only
  split
  case isTrue hc =>
    exact Inv_ChangeSpace_shrink hash h2 hc.1
  case isFalse hc =>
    exact h2

theorem Inv_insert {m : HM} (h : Inv hash m) (k v : Nat) :
    Inv hash (insert hash m k v).1 := by
  cases hF : Find hash m k with
  | some id =>
    simp only [insert, hF]
    exact h
  | none =>
    simp only [insert, hF]
    exact Inv_Add hash h ((Find_eq_none_iff hash h).mp hF) v

theorem Inv_bracket {m : HM} (h : Inv hash m) (k : Nat) :
    Inv hash (bracket hash m k).1 := by
  cases hF : Find hash m k with
  | some id =>
    simp only [bracket, hF]
    exact h
  | none =>
    simp only [bracket, hF]
    exact Inv_Add hash h ((Find_eq_none_iff hash h).mp hF) 0

theorem setVal_entry_id (id v : Nat) (e : Entry) :
    ((fun e => if e.id = id then Entry.mk e.key v e.id else e) e).id = e.id := by
  by_cases hc : e.id = id <;> simp [hc]

theorem setVal_entry_key (id v : Nat) (e : Entry) :
    ((fun e => if e.id = id then Entry.mk e.key v e.id else e) e).key = e.key := by
  by_cases hc : e.id = id <;> simp [hc]

theorem setVal_map_id (m : HM) (id v : Nat) :
    (setVal m id v).order.map Entry.id = m.order.map Entry.id := by
  simp only [setVal, List.map_map]
  exact List.map_congr_left (fun e _ => setVal_entry_id id v e)

theorem setVal_map_key (m : HM) (id v : Nat) :
    (setVal m id v).order.map Entry.key = m.order.map Entry.key := by
  simp only [setVal, List.map_map]
  exact List.map_congr_left (fun e _ => setVal_entry_key id v e)

theorem Inv_setVal {m : HM} (h : Inv hash m) (id v : Nat) :
    Inv hash (setVal m id v) := by
  refine ⟨h.len_form, ?_, ?_, ?_, ?_, ?_, ?_, h.chain_nodup⟩
  · simpa [setVal] using h.load_eq
  · rw [setVal_map_id]; exact h.ids_nodup
  · intro e he
    obtain ⟨e0, he0, rfl⟩ := List.mem_map.mp he
    rw [setVal_entry_id]
    exact h.ids_lt e0 he0
  · rw [setVal_map_key]; exact h.keys_nodup
  · intro e he
    obtain ⟨e0, he0, rfl⟩ := List.mem_map.mp he
    rw [setVal_entry_id, setVal_entry_key]
    exact h.chain_mem e0 he0
  · intro i id' hid
    obtain ⟨e0, he0, rfl, hie⟩ := h.chain_sound i id' hid
    refine ⟨(fun e => if e.id = id then Entry.mk e.key v e.id else e) e0,
      List.mem_map_of_mem _ he0, ?_, ?_⟩
    · rw [setVal_entry_id]
    · rw [setVal_entry_key]
      exact hie

theorem HM_ext {a b : HM} (h1 : a.cid = b.cid) (h2 : a.len = b.len)
    (h3 : a.load = b.load) (h4 : a.order = b.order) (h5 : a.buc = b.buc)
    (h6 : a.nextId = b.nextId) : a = b := by
  cases a; cases b
  simp_all

theorem Inv_empty_like (cid nid len : Nat) (hform : ∃ k, len + 1 = 14 * 2 ^ k) :
    Inv hash ⟨cid, len, 0, [], fun _ => [], nid⟩ := by
  refine ⟨hform, rfl, List.nodup_nil, ?_, List.nodup_nil, ?_, ?_, ?_⟩
  · intro e he; simp at he
  · intro e he; simp at he
  · intro i id hid; simp at hid
  · intro i; exact List.nodup_nil

theorem notin_cons_bool (x a : Nat) (rest : List Nat) :
    (decide (x ∉ a :: rest)) = ((x != a) && decide (x ∉ rest)) := by
  by_cases h1 : x = a <;> by_cases h2 : x ∈ rest <;> simp [h1, h2]

theorem Del_noShrink {m : HM} (hm : m.len = LEN) (a : Nat) :
    Del hash m a
      = { m with order := m.order.filter (fun e => e.id != a), load := m.load - 1 } := by
  rw [Del]
  dsimp only
  rw [if_neg]
  intro hc
  rw [hm] at hc
  exact Nat.lt_irrefl _ hc.1

theorem clearLoop_spec (ids : List Nat) : ∀ m : HM, m.len = LEN →
    (clearLoop hash m ids).cid = m.cid ∧
    (clearLoop hash m ids).len = LEN ∧
    (clearLoop hash m ids).nextId = m.nextId ∧
    (clearLoop hash m ids).buc = m.buc ∧
    (clearLoop hash m ids).order = m.order.filter (fun e => decide (e.id ∉ ids)) ∧
    (clearLoop hash m ids).load = m.load - ids.length := by
  induction ids with
  | nil =>
    intro m hm
    refine ⟨rfl, hm, rfl, rfl, ?_, rfl⟩
    exact (List.filter_eq_self.mpr (fun x _ => by simp)).symm
  | cons a rest ih =>
    intro m hm
    rw [clearLoop, Del_noShrink hash hm]
    obtain ⟨c1, c2, c3, c4, c5, c6⟩ :=
      ih { m with order := m.order.filter (fun e => e.id != a), load := m.load - 1 } hm
    dsimp only at c1 c3 c4 c5 c6
    refine ⟨c1, c2, c3, c4, ?_, ?_⟩
    · rw [c5, List.filter_filter]
      apply List.filter_congr
      intro x _
      rw [notin_cons_bool, Bool.and_comm]
    · rw [c6]
      simp only [List.length_cons]
      omega

theorem ClearNode_spec {m : HM} (h : Inv hash m) :
    ClearNode hash m = ⟨m.cid, LEN, 0, [], m.buc, m.nextId⟩ := by
  rw [ClearNode]
  obtain ⟨c1, c2, c3, c4, c5, c6⟩ :=
    clearLoop_spec hash (m.order.map Entry.id) { m with len := LEN } rfl
  dsimp only at c1 c3 c4 c5 c6
  refine HM_ext c1 c2 ?_ ?_ c4 c3
  · rw [c6, h.load_eq, List.length_map]
    simp
  · rw [c5, List.filter_eq_nil_iff]
    intro e he
    simp only [decide_eq_true_eq, Decidable.not_not]
    exact List.mem_map_of_mem Entry.id he

theorem clear_spec {m : HM} (h : Inv hash m) :
    clear hash m = ⟨m.cid, LEN, 0, [], fun _ => [], m.nextId⟩ := by
  rw [clear, ClearNode_spec hash h]

theorem Inv_clear {m : HM} (h : Inv hash m) : Inv hash (clear hash m) := by
  rw [clear_spec hash h]
  exact Inv_empty_like hash m.cid m.nextId LEN ⟨0, by simp [LEN]⟩

theorem Inv_empty (cid : Nat) : Inv hash (emptyHM cid) :=
  Inv_empty_like hash cid 0 LEN ⟨0, by simp [LEN]⟩

theorem foldl_Add_spec (es : List Entry) : ∀ s : HM, Inv hash s →
    (es.map Entry.key).Nodup →
    (∀ e ∈ es, ∀ e' ∈ s.order, e.key ≠ e'.key) →
    Inv hash (es.foldl (fun b e => (Add hash b e.key e.val).1) s) ∧
    (es.foldl (fun b e => (Add hash b e.key e.val).1) s).order.map (fun e => (e.key, e.val))
      = s.order.map (fun e => (e.key, e.val)) ++ es.map (fun e => (e.key, e.val)) ∧
    (∀ x ∈ (es.foldl (fun b e => (Add hash b e.key e.val).1) s).order,
        x ∈ s.order ∨ s.nextId ≤ x.id) ∧
    (es.foldl (fun b e => (Add hash b e.key e.val).1) s).cid = s.cid := by
  induction es with
  | nil =>
    intro s hs _ _
    exact ⟨hs, by simp, fun x hx => Or.inl hx, rfl⟩
  | cons e rest ih =>
    intro s hs hnd hcross
    simp only [List.map_cons, List.nodup_cons] at hnd
    have hs' : Inv hash (Add hash s e.key e.val).1 :=
      Inv_Add hash hs
        (fun e' he' => (hcross e (List.mem_cons_self e rest) e' he').symm) e.val
    have hcross' : ∀ x ∈ rest, ∀ e' ∈ (Add hash s e.key e.val).1.order, x.key ≠ e'.key := by
      intro x hx e' he'
      rw [Add_order] at he'
      rcases List.mem_append.mp he' with hmem | hnew
      · exact hcross x (List.mem_cons_of_mem e hx) e' hmem
      · simp only [List.mem_singleton] at hnew
        subst hnew
        intro hEq
        exact hnd.1 (hEq ▸ List.mem_map_of_mem Entry.key hx)
    obtain ⟨i1, i2, i3, i4⟩ := ih (Add hash s e.key e.val).1 hs' hnd.2 hcross'
    simp only [List.foldl_cons]
    refine ⟨i1, ?_, ?_, by rw [i4, Add_cid]⟩
    · rw [i2, Add_order]
      simp [List.map_append]
    · intro x hx
      rcases i3 x hx with hmem | hge
      · rw [Add_order] at hmem
        rcases List.mem_append.mp hmem with hmem' | hnew
        · exact Or.inl hmem'
        · simp only [List.mem_singleton] at hnew
          subst hnew
          exact Or.inr (Nat.le_refl _)
      · rw [Add_nextId] at hge
        exact Or.inr (Nat.le_of_succ_le hge)

theorem Inv_copy {m : HM} (h : Inv hash m) (cid base : Nat) :
    Inv hash (copy hash m cid base) := by
  have h0 : Inv hash (⟨cid, m.len, 0, [], fun _ => [], base⟩ : HM) := by
    refine ⟨h.len_form, rfl, List.nodup_nil, ?_, List.nodup_nil, ?_, ?_, ?_⟩
    · intro e he; simp at he
    · intro e he; simp at he
    · intro i id hid; simp at hid
    · intro i; exact List.nodup_nil
  exact (foldl_Add_spec hash m.order _ h0 h.keys_nodup (by intro e _ e' he'; simp at he')).1

theorem copy_order {m : HM} (h : Inv hash m) (cid base : Nat) :
    (copy hash m cid base).order.map (fun e => (e.key, e.val))
      = m.order.map (fun e => (e.key, e.val)) := by
  have h0 : Inv hash (⟨cid, m.len, 0, [], fun _ => [], base⟩ : HM) := by
    refine ⟨h.len_form, rfl, List.nodup_nil, ?_, List.nodup_nil, ?_, ?_, ?_⟩
    · intro e he; simp at he
    · intro e he; simp at he
    · intro i id hid; simp at hid
    · intro i; exact List.nodup_nil
  have := (foldl_Add_spec hash m.order _ h0 h.keys_nodup
    (by intro e _ e' he'; simp at he')).2.1
  simpa [copy] using this

theorem copy_fresh_ids {m : HM} (h : Inv hash m) (cid base : Nat) :
    ∀ x ∈ (copy hash m cid base).order, base ≤ x.id := by
  have h0 : Inv hash (⟨cid, m.len, 0, [], fun _ => [], base⟩ : HM) := by
    refine ⟨h.len_form, rfl, List.nodup_nil, ?_, List.nodup_nil, ?_, ?_, ?_⟩
    · intro e he; simp at he
    · intro e he; simp at he
    · intro i id hid; simp at hid
    · intro i; exact List.nodup_nil
  intro x hx
  have := (foldl_Add_spec hash m.order _ h0 h.keys_nodup
    (by intro e _ e' he'; simp at he')).2.2.1 x hx
  rcases this with hmem | hge
  · simp at hmem
  · exact hge

/-- Master soundness theorem: the dual-structure invariant holds in every
state reachable through the public interface. -/
theorem Inv_of_Reachable {m : HM} (hR : Reachable hash m) : Inv hash m := by
  induction hR with
  | empty cid => exact Inv_empty hash cid
  | insert m k v _ ih => exact Inv_insert hash ih k v
  | erase m m' it _ her ih => exact Inv_erase hash ih her
  | bracket m k _ ih => exact Inv_bracket hash ih k
  | setVal m id v _ ih => exact Inv_setVal hash ih id v
  | clear m _ ih => exact Inv_clear hash ih
  | copy m cid base _ ih => exact Inv_copy hash ih cid base

theorem insert_found {m : HM} (_h : Inv hash m) {k id : Nat}
    (hF : Find hash m k = some id) (v : Nat) :
    insert hash m k v = (m, ⟨m.cid, some id⟩, false) := by
  simp [insert, hF]

theorem insert_keys {m : HM} (h : Inv hash m) (k v : Nat) :
    (insert hash m k v).1.order.map Entry.key
      = if k ∈ m.order.map Entry.key then m.order.map Entry.key
        else m.order.map Entry.key ++ [k] := by
  by_cases hk : k ∈ m.order.map Entry.key
  · rw [if_pos hk]
    obtain ⟨e, he, rfl⟩ := List.mem_map.mp hk
    rw [insert_found hash h ((Find_eq_some_iff hash h).mpr ⟨e, he, rfl, rfl⟩) v]
  · rw [if_neg hk]
    have habs : ∀ e ∈ m.order, e.key ≠ k := by
      intro e he hEq
      exact hk (hEq ▸ List.mem_map_of_mem Entry.key he)
    have hF : Find hash m k = none := (Find_eq_none_iff hash h).mpr habs
    simp only [insert, hF]
    rw [Add_order]
    simp

theorem bracket_keys {m : HM} (h : Inv hash m) (k : Nat) :
    (bracket hash m k).1.order.map Entry.key
      = if k ∈ m.order.map Entry.key then m.order.map Entry.key
        else m.order.map Entry.key ++ [k] := by
  by_cases hk : k ∈ m.order.map Entry.key
  · rw [if_pos hk]
    obtain ⟨e, he, rfl⟩ := List.mem_map.mp hk
    have hF := (Find_eq_some_iff hash h).mpr ⟨e, he, rfl, rfl⟩
    simp [bracket, hF]
  · rw [if_neg hk]
    have habs : ∀ e ∈ m.order, e.key ≠ k := by
      intro e he hEq
      exact hk (hEq ▸ List.mem_map_of_mem Entry.key he)
    have hF : Find hash m k = none := (Find_eq_none_iff hash h).mpr habs
    simp only [bracket, hF]
    rw [Add_order]
    simp

theorem erase_found {m : HM} (h : Inv hash m) {k id : Nat}
    (hF : Find hash m k = some id) :
    ∃ m', erase hash m ⟨m.cid, some id⟩ = some m' ∧
      m'.order = m.order.filter (fun e => e.id != id) := by
  obtain ⟨e, he, rfl, hk⟩ := (Find_eq_some_iff hash h).mp hF
  have hlk : lookup m e.id = some e := lookup_of_mem h.ids_nodup he
  have hE : erase hash m ⟨m.cid, some e.id⟩
      = some (Del hash
          { m with buc := Function.update m.buc (hash e.key % m.len)
                            ((m.buc (hash e.key % m.len)).erase e.id) } e.id) := by
    simp only [erase, hlk, if_neg (not_ne_iff.mpr rfl)]
  exact ⟨_, hE, Del_order hash _ e.id⟩

theorem erase_found_keys {m : HM} (h : Inv hash m) {k id : Nat}
    (hF : Find hash m k = some id) {m' : HM}
    (horder : m'.order = m.order.filter (fun e => e.id != id)) :
    m'.order.map Entry.key = (m.order.map Entry.key).filter (fun x => x != k) := by
  obtain ⟨e, he, rfl, hk⟩ := (Find_eq_some_iff hash h).mp hF
  rw [horder]
  have hcong : m.order.filter (fun x => x.id != e.id)
      = m.order.filter (fun x => ((fun y => y != k) ∘ Entry.key) x) := by
    apply List.filter_congr
    intro x hx
    show (x.id != e.id) = (x.key != k)
    by_cases hid : x.id = e.id
    · have hxe : x = e := List.inj_on_of_nodup_map h.ids_nodup hx he hid
      subst hxe
      simp [hk]
    · have hkey : x.key ≠ k := by
        intro hEq
        exact hid (congrArg Entry.id
          (List.inj_on_of_nodup_map h.keys_nodup hx he (hEq.trans hk.symm)))
      rw [bne_iff_ne.mpr hid, bne_iff_ne.mpr hkey]
  rw [hcong, ← List.map_filter]

/-- Find depends only on the order-list contents once the invariant holds:
two invariant-satisfying states with the same order list find the same node. -/
theorem Find_congr {m m' : HM} (h : Inv hash m) (h' : Inv hash m')
    (horder : m'.order = m.order) (k : Nat) :
    Find hash m' k = Find hash m k := by
  cases hF : Find hash m k with
  | some id =>
    obtain ⟨e, he, hid, hk⟩ := (Find_eq_some_iff hash h).mp hF
    exact (Find_eq_some_iff hash h').mpr ⟨e, horder ▸ he, hid, hk⟩
  | none =>
    have habs := (Find_eq_none_iff hash h).mp hF
    exact (Find_eq_none_iff hash h').mpr (fun e he => habs e (horder ▸ he))

/-- Specification-side view of the key sequence: the keys in first-insertion
order, as the spec describes them (`insert`/`operator[]` append a new key at
the tail and leave a present key in place; `erase` removes the key). -/
def specKeys : List Op → List Nat → List Nat
  | [], ks => ks
  | .ins k _ :: ops, ks => specKeys ops (if k ∈ ks then ks else ks ++ [k])
  | .del k :: ops, ks => specKeys ops (ks.filter (fun x => x != k))
  | .wr k _ :: ops, ks => specKeys ops (if k ∈ ks then ks else ks ++ [k])

theorem Reachable_applyOp {m : HM} (hR : Reachable hash m) (op : Op) :
    Reachable hash (applyOp hash m op) := by
  cases op with
  | ins k v => exact Reachable.insert m k v hR
  | wr k v => exact Reachable.setVal _ _ _ (Reachable.bracket m k hR)
  | del k =>
    have h := Inv_of_Reachable hash hR
    cases hF : Find hash m k with
    | none => simpa [applyOp, hF] using hR
    | some id =>
      obtain ⟨m', hm', _⟩ := erase_found hash h hF
      simp only [applyOp, hF, hm', Option.getD_some]
      exact Reachable.erase m m' _ hR hm'

theorem applyOp_keys {m : HM} (hR : Reachable hash m) (op : Op) :
    (applyOp hash m op).order.map Entry.key
      = specKeys [op] (m.order.map Entry.key) := by
  have h := Inv_of_Reachable hash hR
  cases op with
  | ins k v => simpa [applyOp, specKeys] using insert_keys hash h k v
  | wr k v =>
    show (setVal (bracket hash m k).1 (bracket hash m k).2 v).order.map Entry.key = _
    rw [setVal_map_key]
    simpa [specKeys] using bracket_keys hash h k
  | del k =>
    cases hF : Find hash m k with
    | none =>
      have habs := (Find_eq_none_iff hash h).mp hF
      simp only [applyOp, hF, specKeys]
      rw [List.filter_eq_self.mpr]
      intro x hx
      obtain ⟨e, he, rfl⟩ := List.mem_map.mp hx
      simpa using habs e he
    | some id =>
      obtain ⟨m', hm', horder⟩ := erase_found hash h hF
      simp only [applyOp, hF, hm', Option.getD_some, specKeys]
      exact erase_found_keys hash h hF horder

theorem replay_keys (ops : List Op) : ∀ m : HM, Reachable hash m →
    (replay hash m ops).order.map Entry.key = specKeys ops (m.order.map Entry.key) := by
  induction ops with
  | nil => intro m _; rfl
  | cons op ops ih =>
    intro m hR
    rw [replay]
    rw [ih (applyOp hash m op) (Reachable_applyOp hash hR op)]
    have h1 := applyOp_keys hash hR op
    cases op with
    | ins k v => simp only [specKeys] at h1 ⊢; rw [h1]
    | del k => simp only [specKeys] at h1 ⊢; rw [h1]
    | wr k v => simp only [specKeys] at h1 ⊢; rw [h1]

theorem specKeys_ins (kvs : List (Nat × Nat)) : ∀ ks : List Nat,
    (ks ++ kvs.map Prod.fst).Nodup →
    specKeys (kvs.map (fun kv => Op.ins kv.1 kv.2)) ks = ks ++ kvs.map Prod.fst := by
  induction kvs with
  | nil => intro ks _; simp [specKeys]
  | cons kv rest ih =>
    intro ks hnd
    have hk : kv.1 ∉ ks := by
      intro hmem
      rw [List.nodup_append] at hnd
      exact hnd.2.2 hmem (by simp)
    simp only [List.map_cons, specKeys, if_neg hk]
    rw [ih (ks ++ [kv.1]) (by simpa using hnd)]
    simp

theorem Reachable_replay (ops : List Op) : ∀ m : HM, Reachable hash m →
    Reachable hash (replay hash m ops) := by
  induction ops with
  | nil => intro m hR; exact hR
  | cons op ops ih => intro m hR; exact ih _ (Reachable_applyOp hash hR op)

/-- C1: running any script of insertions, erasures (through `find` +
`erase(iterator)`, the operations that trigger every growth and shrink
resize) and `operator[]` writes on an initially empty map leaves
`begin()..end()` yielding exactly the spec-level first-insertion-order key
sequence; in particular, a script of insertions with pairwise-distinct keys
yields exactly those keys in the order first inserted, regardless of the
resizes that occurred in between. -/
theorem order_preservation (hash : Nat → Nat) (cid : Nat) (ops : List Op)
    (kvs : List (Nat × Nat)) (hnd : (kvs.map Prod.fst).Nodup) :
    (replay hash (emptyHM cid) ops).order.map Entry.key = specKeys ops [] ∧
    (replay hash (emptyHM cid) (kvs.map (fun kv => Op.ins kv.1 kv.2))).order.map Entry.key
      = kvs.map Prod.fst := by
  constructor
  · simpa [emptyHM] using replay_keys hash ops (emptyHM cid) (Reachable.empty cid)
  · rw [replay_keys hash _ (emptyHM cid) (Reachable.empty cid)]
    have hs := specKeys_ins kvs [] (by simpa using hnd)
    simpa [emptyHM] using hs

theorem order_preservation_witness :
    (replay (fun n => n) (emptyHM 0)
        [Op.ins 1 10, Op.ins 2 20, Op.del 1, Op.wr 3 30]).order.map Entry.key
      = specKeys [Op.ins 1 10, Op.ins 2 20, Op.del 1, Op.wr 3 30] [] ∧
    (replay (fun n => n) (emptyHM 0)
        ([(4, 1), (7, 2)].map (fun kv => Op.ins kv.1 kv.2))).order.map Entry.key
      = [(4, 1), (7, 2)].map Prod.fst :=
  order_preservation (fun n => n) 0
    [Op.ins 1 10, Op.ins 2 20, Op.del 1, Op.wr 3 30] [(4, 1), (7, 2)] (by decide)

/-- C2: the dual-structure invariant holds in every reachable state — every
live node is reachable from the bucket of its key's hash through chain hops,
and every id on any chain is a live node of the order list — and a resize
(growth, or shrink above the floor) leaves the order list untouched while
`Find` returns the same node for every key, so every live key keeps its
value and iteration position. -/
theorem dual_structure_invariant {hash : Nat → Nat} {m : HM}
    (hR : Reachable hash m) :
    (∀ e ∈ m.order, e.id ∈ m.buc (hash e.key % m.len)) ∧
    (∀ i id, id ∈ m.buc i → ∃ e ∈ m.order, e.id = id) ∧
    (∀ d : Int, (d = 1 ∨ (d = -1 ∧ LEN < m.len)) →
      (ChangeSpace hash m d).order = m.order ∧
      ∀ k, Find hash (ChangeSpace hash m d) k = Find hash m k) := by
  have h := Inv_of_Reachable hash hR
  refine ⟨h.chain_mem, ?_, ?_⟩
  · intro i id hid
    obtain ⟨e, he, hide, _⟩ := h.chain_sound i id hid
    exact ⟨e, he, hide⟩
  · intro d hd
    have h' : Inv hash (ChangeSpace hash m d) := by
      rcases hd with rfl | ⟨rfl, hlen⟩
      · exact Inv_ChangeSpace_grow hash h
      · exact Inv_ChangeSpace_shrink hash h hlen
    exact ⟨rfl, fun k => Find_congr hash h h' rfl k⟩

theorem dual_structure_invariant_witness :
    (∀ e ∈ (insert (fun n => n) (emptyHM 0) 1 5).1.order,
        e.id ∈ (insert (fun n => n) (emptyHM 0) 1 5).1.buc
          (e.key % (insert (fun n => n) (emptyHM 0) 1 5).1.len)) ∧
    (∀ i id, id ∈ (insert (fun n => n) (emptyHM 0) 1 5).1.buc i →
        ∃ e ∈ (insert (fun n => n) (emptyHM 0) 1 5).1.order, e.id = id) ∧
    (∀ d : Int, (d = 1 ∨ (d = -1 ∧ LEN < (insert (fun n => n) (emptyHM 0) 1 5).1.len)) →
      (ChangeSpace (fun n => n) (insert (fun n => n) (emptyHM 0) 1 5).1 d).order
        = (insert (fun n => n) (emptyHM 0) 1 5).1.order ∧
      ∀ k, Find (fun n => n) (ChangeSpace (fun n => n) (insert (fun n => n) (emptyHM 0) 1 5).1 d) k
        = Find (fun n => n) (insert (fun n => n) (emptyHM 0) 1 5).1 k) :=
  dual_structure_invariant
    (Reachable.insert (emptyHM 0) 1 5 (Reachable.empty 0))

/-- C3: insert of a value whose key is already present returns an iterator
at the existing entry with flag false, and the container state — stored
value, iteration order, size, capacity — is exactly the unchanged `m`. -/
theorem insert_duplicate_noop {hash : Nat → Nat} {m : HM} (hR : Reachable hash m)
    {k : Nat} {e : Entry} (he : e ∈ m.order) (hk : e.key = k) (v : Nat) :
    insert hash m k v = (m, ⟨m.cid, some e.id⟩, false) := by
  have h := Inv_of_Reachable hash hR
  exact insert_found hash h ((Find_eq_some_iff hash h).mpr ⟨e, he, rfl, hk⟩) v

theorem insert_duplicate_noop_witness :
    insert (fun n => n) (insert (fun n => n) (emptyHM 0) 5 7).1 5 9
      = ((insert (fun n => n) (emptyHM 0) 5 7).1, ⟨0, some 0⟩, false) :=
  insert_duplicate_noop (Reachable.insert (emptyHM 0) 5 7 (Reachable.empty 0))
    (e := ⟨5, 7, 0⟩) (by decide) rfl 9

/-- C4: inserting an absent key triggers growth exactly when the live count
read before the increment strictly exceeds the capacity, and then the new
capacity is exactly `(len << 1) | 1 = 2*len + 1` — an odd number that is
never a power of two. -/
theorem grow_policy {hash : Nat → Nat} {m : HM} (hR : Reachable hash m) {k : Nat}
    (habs : Find hash m k = none) (v : Nat) :
    ((insert hash m k v).1.len
      = if m.len < m.load then (m.len <<< 1) ||| 1 else m.len) ∧
    (m.len < m.load →
      (insert hash m k v).1.len = 2 * m.len + 1 ∧
      (insert hash m k v).1.len % 2 = 1 ∧
      ∀ j : Nat, (insert hash m k v).1.len ≠ 2 ^ j) := by
  have h := Inv_of_Reachable hash hR
  have hlen13 := len_ge_of_inv hash h
  simp only [LEN] at hlen13
  have hA : (insert hash m k v).1.len
      = if m.len < m.load then 2 * m.len + 1 else m.len := by
    simp only [insert, habs]
    exact Add_len hash m k v
  constructor
  · rw [hA, grow_len]
  · intro hg
    rw [hA, if_pos hg]
    refine ⟨rfl, by omega, ?_⟩
    intro j hEq
    rcases j with _ | j'
    · rw [pow_zero] at hEq
      omega
    · rw [pow_succ] at hEq
      omega

theorem grow_policy_witness :
    ((insert (fun n => n)
        (replay (fun n => n) (emptyHM 0) ((List.range 14).map (fun i => Op.ins i i))) 100 1).1.len
      = if (replay (fun n => n) (emptyHM 0) ((List.range 14).map (fun i => Op.ins i i))).len
          < (replay (fun n => n) (emptyHM 0) ((List.range 14).map (fun i => Op.ins i i))).load
        then ((replay (fun n => n) (emptyHM 0) ((List.range 14).map (fun i => Op.ins i i))).len <<< 1) ||| 1
        else (replay (fun n => n) (emptyHM 0) ((List.range 14).map (fun i => Op.ins i i))).len) ∧
    ((replay (fun n => n) (emptyHM 0) ((List.range 14).map (fun i => Op.ins i i))).len
        < (replay (fun n => n) (emptyHM 0) ((List.range 14).map (fun i => Op.ins i i))).load →
      (insert (fun n => n)
        (replay (fun n => n) (emptyHM 0) ((List.range 14).map (fun i => Op.ins i i))) 100 1).1.len
        = 2 * (replay (fun n => n) (emptyHM 0) ((List.range 14).map (fun i => Op.ins i i))).len + 1 ∧
      (insert (fun n => n)
        (replay (fun n => n) (emptyHM 0) ((List.range 14).map (fun i => Op.ins i i))) 100 1).1.len % 2 = 1 ∧
      ∀ j : Nat,
        (insert (fun n => n)
          (replay (fun n => n) (emptyHM 0) ((List.range 14).map (fun i => Op.ins i i))) 100 1).1.len
          ≠ 2 ^ j) :=
  grow_policy
    (Reachable_replay (fun n => n) ((List.range 14).map (fun i => Op.ins i i))
      (emptyHM 0) (Reachable.empty 0))
    (by decide) 1

/-- C5: in every reachable state the capacity is at least the floor 13, and
a successful `erase` leaves the capacity halved (`len >> 1`) exactly when
the post-removal count satisfies `4 * count < len` and `len` strictly
exceeds the floor, and unchanged otherwise. -/
theorem shrink_policy_and_floor {hash : Nat → Nat} {m : HM}
    (hR : Reachable hash m) :
    LEN ≤ m.len ∧
    ∀ it : Iter, ∀ m' : HM, erase hash m it = some m' →
      m'.len = if LEN < m.len ∧ 4 * (m.load - 1) < m.len
               then m.len >>> 1 else m.len := by
  have h := Inv_of_Reachable hash hR
  refine ⟨len_ge_of_inv hash h, ?_⟩
  intro it m' her
  obtain ⟨id, e, hcur, hsrc, hlk, rfl⟩ := erase_eq_some hash her
  rw [Del_len]
  have hsr : m.len >>> 1 = m.len / 2 := by omega
  rw [hsr]

theorem shrink_policy_and_floor_witness :
    LEN ≤ (replay (fun n => n) (emptyHM 0)
        (((List.range 15).map (fun i => Op.ins i i))
          ++ ((List.range 8).map (fun i => Op.del i)))).len ∧
    ((erase (fun n => n)
        (replay (fun n => n) (emptyHM 0)
          (((List.range 15).map (fun i => Op.ins i i))
            ++ ((List.range 8).map (fun i => Op.del i)))) ⟨0, some 8⟩).getD (emptyHM 0)).len
      = if LEN < (replay (fun n => n) (emptyHM 0)
            (((List.range 15).map (fun i => Op.ins i i))
              ++ ((List.range 8).map (fun i => Op.del i)))).len
          ∧ 4 * ((replay (fun n => n) (emptyHM 0)
              (((List.range 15).map (fun i => Op.ins i i))
                ++ ((List.range 8).map (fun i => Op.del i)))).load - 1)
            < (replay (fun n => n) (emptyHM 0)
                (((List.range 15).map (fun i => Op.ins i i))
                  ++ ((List.range 8).map (fun i => Op.del i)))).len
        then (replay (fun n => n) (emptyHM 0)
            (((List.range 15).map (fun i => Op.ins i i))
              ++ ((List.range 8).map (fun i => Op.del i)))).len >>> 1
        else (replay (fun n => n) (emptyHM 0)
            (((List.range 15).map (fun i => Op.ins i i))
              ++ ((List.range 8).map (fun i => Op.del i)))).len :=
  ⟨(shrink_policy_and_floor
      (Reachable_replay (fun n => n) _ (emptyHM 0) (Reachable.empty 0))).1,
   (shrink_policy_and_floor
      (Reachable_replay (fun n => n) _ (emptyHM 0) (Reachable.empty 0))).2
     ⟨0, some 8⟩ _ (by rfl)⟩

/-- C6: `operator[]` on an absent key never fails: it appends a node with the
default-constructed mapped value (`0`) at the tail of the iteration order,
returns the reference to that node, and a value written through the
reference is visible through a subsequent `at(key)`. -/
theorem bracket_miss_inserts_default_at_tail {hash : Nat → Nat} {m : HM}
    (hR : Reachable hash m) {k : Nat} (habs : ∀ e ∈ m.order, e.key ≠ k) (v : Nat) :
    (bracket hash m k).1.order.map Entry.key = m.order.map Entry.key ++ [k] ∧
    (∃ e ∈ (bracket hash m k).1.order,
      e.id = (bracket hash m k).2 ∧ e.key = k ∧ e.val = 0) ∧
    atVal hash (setVal (bracket hash m k).1 (bracket hash m k).2 v) k = some v := by
  have h := Inv_of_Reachable hash hR
  have hF : Find hash m k = none := (Find_eq_none_iff hash h).mpr habs
  have hb1 : (bracket hash m k).1 = (Add hash m k 0).1 := by simp [bracket, hF]
  have hb2 : (bracket hash m k).2 = m.nextId := by
    simp [bracket, hF, Add_snd]
  refine ⟨?_, ?_, ?_⟩
  · rw [hb1, Add_order]
    simp
  · rw [hb1, hb2, Add_order]
    exact ⟨⟨k, 0, m.nextId⟩, List.mem_append_right _ (by simp), rfl, rfl, rfl⟩
  · rw [hb1, hb2]
    have hInv2 : Inv hash (Add hash m k 0).1 := Inv_Add hash h habs 0
    have hInv3 : Inv hash (setVal (Add hash m k 0).1 m.nextId v) :=
      Inv_setVal hash hInv2 m.nextId v
    have hmem : (⟨k, v, m.nextId⟩ : Entry)
        ∈ (setVal (Add hash m k 0).1 m.nextId v).order := by
      simp only [setVal, Add_order, List.map_append, List.map_cons, List.map_nil]
      apply List.mem_append_right
      simp
    have hF3 : Find hash (setVal (Add hash m k 0).1 m.nextId v) k
        = some m.nextId :=
      (Find_eq_some_iff hash hInv3).mpr ⟨⟨k, v, m.nextId⟩, hmem, rfl, rfl⟩
    have hlk : lookup (setVal (Add hash m k 0).1 m.nextId v) m.nextId
        = some ⟨k, v, m.nextId⟩ :=
      lookup_of_mem hInv3.ids_nodup hmem
    simp [atVal, hF3, hlk]

theorem bracket_miss_witness :
    (bracket (fun n => n) (insert (fun n => n) (emptyHM 0) 1 5).1 2).1.order.map Entry.key
      = (insert (fun n => n) (emptyHM 0) 1 5).1.order.map Entry.key ++ [2] ∧
    (∃ e ∈ (bracket (fun n => n) (insert (fun n => n) (emptyHM 0) 1 5).1 2).1.order,
      e.id = (bracket (fun n => n) (insert (fun n => n) (emptyHM 0) 1 5).1 2).2
        ∧ e.key = 2 ∧ e.val = 0) ∧
    atVal (fun n => n)
      (setVal (bracket (fun n => n) (insert (fun n => n) (emptyHM 0) 1 5).1 2).1
        (bracket (fun n => n) (insert (fun n => n) (emptyHM 0) 1 5).1 2).2 42) 2
      = some 42 :=
  bracket_miss_inserts_default_at_tail
    (Reachable.insert (emptyHM 0) 1 5 (Reachable.empty 0))
    (by decide) 42

/-- C7: `erase(pos)` raises the invalid-iterator error exactly when `pos` is
the end iterator or was produced by a different container (for any iterator
whose node, when it claims to come from this container, is actually live in
it — a dangling same-container iterator is undefined behaviour in the
source); raising returns no successor state, so the container is left as it
was. -/
theorem erase_invalid_iff {hash : Nat → Nat} {m : HM} (hR : Reachable hash m)
    (it : Iter)
    (hvalid : ∀ id, it.cur = some id → it.src = m.cid → ∃ e ∈ m.order, e.id = id) :
    erase hash m it = none ↔ (it.cur = none ∨ it.src ≠ m.cid) := by
  have h := Inv_of_Reachable hash hR
  constructor
  · intro hnone
    cases hcur : it.cur with
    | none => exact Or.inl rfl
    | some id =>
      by_cases hsrc : it.src = m.cid
      · obtain ⟨e, he, hide⟩ := hvalid id hcur hsrc
        have hlk : lookup m id = some e := by
          rw [← hide]
          exact lookup_of_mem h.ids_nodup he
        rw [erase, hcur] at hnone
        simp only [if_neg (not_ne_iff.mpr hsrc), hlk] at hnone
        exact Option.noConfusion hnone
      · exact Or.inr hsrc
  · intro hcase
    rcases hcase with hcur | hsrc
    · simp [erase, hcur]
    · cases hcur : it.cur with
      | none => simp [erase, hcur]
      | some id => simp [erase, hcur, if_pos hsrc]

theorem erase_invalid_iff_witness :
    (erase (fun n => n) (insert (fun n => n) (emptyHM 0) 1 5).1 ⟨0, none⟩ = none
      ↔ ((⟨0, none⟩ : Iter).cur = none
          ∨ (⟨0, none⟩ : Iter).src ≠ (insert (fun n => n) (emptyHM 0) 1 5).1.cid)) :=
  erase_invalid_iff (Reachable.insert (emptyHM 0) 1 5 (Reachable.empty 0))
    ⟨0, none⟩ (fun id hid _ => by cases hid)

/-- C8: copy construction yields a map whose iteration sequence of key/value
pairs equals the source's, built from entirely fresh nodes (no node identity
is shared with the source), so mutating the copy cannot touch the
source's nodes. -/
theorem copy_roundtrip {hash : Nat → Nat} {m : HM} (hR : Reachable hash m)
    (cid : Nat) :
    (copy hash m cid m.nextId).order.map (fun e => (e.key, e.val))
      = m.order.map (fun e => (e.key, e.val)) ∧
    ∀ x ∈ (copy hash m cid m.nextId).order, ∀ y ∈ m.order, x.id ≠ y.id := by
  have h := Inv_of_Reachable hash hR
  refine ⟨copy_order hash h cid m.nextId, ?_⟩
  intro x hx y hy hEq
  have h1 := copy_fresh_ids hash h cid m.nextId x hx
  have h2 := h.ids_lt y hy
  omega

theorem copy_roundtrip_witness :
    (copy (fun n => n) (insert (fun n => n) (emptyHM 0) 1 5).1 7
        (insert (fun n => n) (emptyHM 0) 1 5).1.nextId).order.map (fun e => (e.key, e.val))
      = (insert (fun n => n) (emptyHM 0) 1 5).1.order.map (fun e => (e.key, e.val)) ∧
    ∀ x ∈ (copy (fun n => n) (insert (fun n => n) (emptyHM 0) 1 5).1 7
        (insert (fun n => n) (emptyHM 0) 1 5).1.nextId).order,
      ∀ y ∈ (insert (fun n => n) (emptyHM 0) 1 5).1.order, x.id ≠ y.id :=
  copy_roundtrip (Reachable.insert (emptyHM 0) 1 5 (Reachable.empty 0)) 7

/-- C9: after inserting keys 1, 2, 3 in that order into an empty map and
then re-inserting key 1 with the new value 99 through `operator[]` (the
spec's mechanism for overwriting: `m[a] = v`; plain `insert` of a duplicate
is a no-op), the iteration order is still 1, 2, 3 and `at(1)` yields 99. -/
theorem reinsert_scenario :
    (insert (fun n => n)
      (insert (fun n => n)
        (insert (fun n => n) (emptyHM 0) 1 10).1 2 20).1 3 30).1.order.map Entry.key
      = [1, 2, 3] ∧
    (setVal
      (bracket (fun n => n)
        (insert (fun n => n)
          (insert (fun n => n)
            (insert (fun n => n) (emptyHM 0) 1 10).1 2 20).1 3 30).1 1).1
      (bracket (fun n => n)
        (insert (fun n => n)
          (insert (fun n => n)
            (insert (fun n => n) (emptyHM 0) 1 10).1 2 20).1 3 30).1 1).2
      99).order.map Entry.key = [1, 2, 3] ∧
    atVal (fun n => n)
      (setVal
        (bracket (fun n => n)
          (insert (fun n => n)
            (insert (fun n => n)
              (insert (fun n => n) (emptyHM 0) 1 10).1 2 20).1 3 30).1 1).1
        (bracket (fun n => n)
          (insert (fun n => n)
            (insert (fun n => n)
              (insert (fun n => n) (emptyHM 0) 1 10).1 2 20).1 3 30).1 1).2
        99) 1 = some 99 := by
  refine ⟨by decide, by decide, by decide⟩

/-- C10: `operator[]` on a const map is exactly `at(key)`: on an absent key
it raises `index_out_of_bound` (returns no value) and, being a read-only
operation, performs no insertion. -/
theorem const_bracket_is_at {hash : Nat → Nat} {m : HM} (hR : Reachable hash m)
    {k : Nat} (habs : ∀ e ∈ m.order, e.key ≠ k) :
    bracketConst hash m k = none ∧ bracketConst hash m k = atVal hash m k := by
  have h := Inv_of_Reachable hash hR
  have hF : Find hash m k = none := (Find_eq_none_iff hash h).mpr habs
  exact ⟨by simp [bracketConst, atVal, hF], rfl⟩

theorem const_bracket_is_at_witness :
    bracketConst (fun n => n) (insert (fun n => n) (emptyHM 0) 1 5).1 2 = none ∧
    bracketConst (fun n => n) (insert (fun n => n) (emptyHM 0) 1 5).1 2
      = atVal (fun n => n) (insert (fun n => n) (emptyHM 0) 1 5).1 2 :=
  const_bracket_is_at (Reachable.insert (emptyHM 0) 1 5 (Reachable.empty 0))
    (by decide)

end LinkedHashmap
